import Mathlib

/-!
A verification development for the Uncoder IO translator core.  The Python
source is embedded shallowly: strings are Lean `String`s, or explicit
character lists where character-level manipulation matters; dictionaries are
association lists kept in insertion order (a write appends, a read takes the
last write); fallible code returns `Except`; and the nondeterministic inputs
of constructors (fresh UUIDs, today's date) are explicit parameters.
-/

/- Token type constants. ---------------------------------------------- -/

/-- Modelled from the spec: the module `core/custom_types/tokens.py` is not
under `src/`.  The spec fixes a closed set of comparison token types; the
Sigma modifier engine maps the modifier string `re` to `OperatorType.REGEX`,
fixing that constant's value, and the remaining constants are distinct
strings in the upstream convention. -/
def OperatorType.EQ : String := "="

/-- Modelled from the spec: see `OperatorType.EQ`. -/
def OperatorType.CONTAINS : String := "contains"

/-- Modelled from the spec: see `OperatorType.EQ`. -/
def OperatorType.STARTSWITH : String := "startswith"

/-- Modelled from the spec: see `OperatorType.EQ`. -/
def OperatorType.ENDSWITH : String := "endswith"

/-- Modelled from the spec: see `OperatorType.EQ`. -/
def OperatorType.REGEX : String := "re"

/-- Modelled from the spec: grouping token types from
`core/custom_types/tokens.py` (not under `src/`): the left paren. -/
def GroupType.L_PAREN : String := "("

/-- Modelled from the spec: the right paren, see `GroupType.L_PAREN`. -/
def GroupType.R_PAREN : String := ")"

/-- Modelled from the spec: logical operator token types from
`core/custom_types/tokens.py` (not under `src/`): lowercased spellings. -/
def LogicalOperatorType.AND : String := "and"

/-- Modelled from the spec: see `LogicalOperatorType.AND`. -/
def LogicalOperatorType.OR : String := "or"

/-- Modelled from the spec: `SeverityType.low` from
`core/custom_types/meta_info.py` (not under `src/`); the spec's severity
enumeration contains `low`. -/
def SeverityType.low : String := "low"

/-- Modelled from the spec: `DEFAULT_MAPPING_NAME` from `core/mapping.py`
(not under `src/`): the id of the default source mapping. -/
def DEFAULT_MAPPING_NAME : String := "default"

/- The token model. ---------------------------------------------------- -/

/-- Value carried by a `FieldValue` token: a scalar string or a list of
strings (the shapes the embedded code paths construct and consume). -/
inductive TValue where
  | str (s : String)
  | strs (vs : List String)
deriving DecidableEq

/-- Embedding of the token union `FieldValue | Keyword | Identifier` from
`core/tokenizer.py` and `core/models/*`.  An `Identifier` carries its
`token_type` string; a `FieldValue` carries its source field name, the
`token_type` of its operator `Identifier`, and its value. -/
inductive Token where
  | identifier (token_type : String)
  | fieldValue (source_name : String) (operator : String) (value : TValue)
  | keyword (value : String)
deriving DecidableEq

/- Character-level Python string helpers. ------------------------------ -/

/-- Embedding of Python `str.startswith` on explicit character lists. -/
def pyStartswith : List Char → List Char → Bool
  | [], _ => true
  | _ :: _, [] => false
  | a :: asx, b :: bs => a == b && pyStartswith asx bs

/-- Embedding of Python `str.endswith` on explicit character lists: `s` ends
with `suf` exactly when the reversal of `s` starts with the reversal of
`suf`. -/
def pyEndswith (suf s : List Char) : Bool :=
  pyStartswith suf.reverse s.reverse

/-- Embedding of Python `str.strip(chars)` on explicit character lists:
remove every leading and trailing character that occurs in `chars`. -/
def pyStrip (chars s : List Char) : List Char :=
  (((s.dropWhile fun c => chars.contains c).reverse.dropWhile
      fun c => chars.contains c).reverse)

/-- Embedding of Python `str.lower` (per-character lowering). -/
def pyLower (s : String) : String :=
  String.mk (s.data.map Char.toLower)

/-- Embedding of Python `str.replace(a, b)` for a single-character pattern
`a` (all the `replace` calls embedded here use one-character patterns). -/
def pyReplaceAllChar (a b : Char) (s : String) : String :=
  String.mk (s.data.map fun c => if c = a then b else c)

/-- Embedding of Python `str.replace(a, b, 1)` for a single-character
pattern: replace only the first occurrence. -/
def pyReplaceFirstChar (a b : Char) : List Char → List Char
  | [] => []
  | c :: cs => if c = a then b :: cs else c :: pyReplaceFirstChar a b cs

/-- String-level wrapper of `pyReplaceFirstChar`. -/
def pyReplaceFirst (s : String) (a b : Char) : String :=
  String.mk (pyReplaceFirstChar a b s.data)

/-- String-level wrapper of `pyStartswith`. -/
def pyStartswithS (pre s : String) : Bool :=
  pyStartswith pre.data s.data

/- Tokenizer: wildcard normalization (core/tokenizer.py). -------------- -/

/-- Embedding of `QueryTokenizer._clean_value`: strip the wildcard symbol
from both ends of the value when a truthy wildcard symbol is configured
(`None` and the empty string are falsy). -/
def _clean_value (value : List Char) (wildcard_symbol : Option (List Char)) : List Char :=
  match wildcard_symbol with
  | some ws => if ws.isEmpty then value else pyStrip ws value
  | none => value

/-- Embedding of `QueryTokenizer.__get_operator_token`: choose the operator
`Identifier` from the wildcard bookends of the raw value. -/
def __get_operator_token (value : List Char) (operator : String)
    (wildcard_symbol : Option (List Char)) : Token :=
  match wildcard_symbol with
  | none => Token.identifier operator
  | some ws =>
    if ws.isEmpty then Token.identifier operator
    else if operator == OperatorType.REGEX
        && !(pyStartswith ws value && pyEndswith ws value) then
      Token.identifier OperatorType.REGEX
    else if pyStartswith ws value && pyEndswith ws value then
      Token.identifier OperatorType.CONTAINS
    else if pyStartswith ws value then
      Token.identifier OperatorType.ENDSWITH
    else if pyEndswith ws value then
      Token.identifier OperatorType.STARTSWITH
    else Token.identifier operator

/-- Embedding of `QueryTokenizer.process_value_wildcard_symbols` on a scalar
value (the `list` branch applies `__get_operator_token` to the first element
and `_clean_value` to each element; the claims quantify over scalars). -/
def process_value_wildcard_symbols (value : List Char) (operator : String)
    (wildcard_symbol : Option (List Char)) : List Char × Token :=
  (_clean_value value wildcard_symbol,
   __get_operator_token value operator wildcard_symbol)

/- Tokenizer: parentheses validation (core/tokenizer.py). -------------- -/

/-- The `token_type` of an `Identifier` token (the validation stack only ever
holds `Identifier` tokens, whose attribute the source reads). -/
def identTypeOf : Token → String
  | Token.identifier tt => tt
  | Token.fieldValue _ op _ => op
  | Token.keyword _ => ""

/-- Whether a token is an `Identifier` with the left-paren token type. -/
def isLParenTok (t : Token) : Bool :=
  match t with
  | Token.identifier tt => tt == GroupType.L_PAREN
  | _ => false

/-- Whether a token is an `Identifier` with the right-paren token type. -/
def isRParenTok (t : Token) : Bool :=
  match t with
  | Token.identifier tt => tt == GroupType.R_PAREN
  | _ => false

/-- Embedding of the loop of `QueryTokenizer._validate_parentheses`,
with the pushdown list `parentheses` made explicit; `false` stands for
raising `QueryParenthesesException`. -/
def validate_parentheses_loop : List Token → List Token → Bool
  | parentheses, [] => parentheses.isEmpty
  | parentheses, token :: rest =>
    match token with
    | Token.identifier tt =>
      if tt == GroupType.L_PAREN || tt == GroupType.R_PAREN then
        if tt == GroupType.L_PAREN then
          validate_parentheses_loop (Token.identifier tt :: parentheses) rest
        else
          match parentheses with
          | [] => false
          | top :: stackRest =>
            if identTypeOf top == GroupType.R_PAREN then false
            else validate_parentheses_loop stackRest rest
      else validate_parentheses_loop parentheses rest
    | _ => validate_parentheses_loop parentheses rest

/-- Embedding of `QueryTokenizer._validate_parentheses`: `true` when the
pass completes, `false` when it raises `QueryParenthesesException`. -/
def _validate_parentheses (tokens : List Token) : Bool :=
  validate_parentheses_loop [] tokens

/-- Number of left-paren identifiers in a token list. -/
def countLParen (tokens : List Token) : Nat :=
  tokens.countP fun t => isLParenTok t

/-- Number of right-paren identifiers in a token list. -/
def countRParen (tokens : List Token) : Nat :=
  tokens.countP fun t => isRParenTok t

/- Tokenizer: operator mapping (core/tokenizer.py). -------------------- -/

/-- Embedding of `QueryTokenizer.map_operator`: look the lowercased operator
text up in the dialect's `operators_map`; a miss raises
`UnsupportedOperatorException` carrying the operator text. -/
def map_operator (operators_map : List (String × String)) (operator : String) :
    Except String String :=
  match operators_map.lookup (pyLower operator) with
  | some mapped => Except.ok mapped
  | none => Except.error operator

/- Sigma modifier engine (platforms/sigma/models/modifiers.py). -------- -/

/-- The `_MULTY_MODIFIER_LEN` constant. -/
def _MULTY_MODIFIER_LEN : Nat := 2

/-- Errors the modifier engine can raise: the bare `raise` of
`__validate_modifiers`, the `NotImplementedError` of `apply_multi_modifier`,
and the `IndexError` of indexing an empty modifier list. -/
inductive SigmaError where
  | bareRaise
  | notImplemented
  | indexError
deriving DecidableEq

/-- The `ModifierManager.and_token` class attribute. -/
def and_token : Token := Token.identifier LogicalOperatorType.AND

/-- The `ModifierManager.or_token` class attribute. -/
def or_token : Token := Token.identifier LogicalOperatorType.OR

/-- The `ModifierManager.modifier_map` class attribute. -/
def modifier_map : List (String × String) := [("re", OperatorType.REGEX)]

/-- Embedding of `ModifierManager.map_modifier`: `modifier_map.get(m, m)`
wrapped in an operator `Identifier`; here the `token_type` string is
returned (the `Identifier` is rebuilt at use sites). -/
def map_modifier (modifier : String) : String :=
  (modifier_map.lookup modifier).getD modifier

/-- Embedding of `ModifierManager.modifier_all`.  A scalar value or a
singleton list yields a single `FieldValue`; a longer list AND-joins the
per-value results and wraps them in parens.  The recursive call on a list
element always hits the scalar branch (elements are `str` by the
`list[str]` annotation), so it is inlined as that branch's result. -/
def modifier_all (field_name modifier : String) : TValue → List Token
  | TValue.str v =>
    [Token.fieldValue field_name (map_modifier modifier) (TValue.str v)]
  | TValue.strs vs =>
    if vs.length == 1 then
      [Token.fieldValue field_name (map_modifier modifier) (TValue.strs vs)]
    else
      let tokens :=
        (vs.map fun v =>
          [Token.fieldValue field_name (map_modifier modifier) (TValue.str v),
           and_token]).flatten
      Token.identifier GroupType.L_PAREN ::
        (tokens.dropLast ++ [Token.identifier GroupType.R_PAREN])

/-- Embedding of `ModifierManager.__prepare_windash_value`: expand a value
starting with `/` or `-` into the pair of both spellings, replacing the
first occurrence of the leading character. -/
def __prepare_windash_value (value : String) : TValue :=
  if pyStartswithS "/" value then
    TValue.strs [value, pyReplaceFirst value '/' '-']
  else if pyStartswithS "-" value then
    TValue.strs [value, pyReplaceFirst value '-' '/']
  else TValue.str value

/-- Embedding of `ModifierManager.modifier_windash`.  A scalar yields a
single `FieldValue` with the windash-expanded value; a list OR-joins the
per-value results and wraps them in parens.  As in `modifier_all`, the
recursive call on a list element is inlined as the scalar branch. -/
def modifier_windash (field_name modifier : String) : TValue → List Token
  | TValue.strs vs =>
    let tokens :=
      (vs.map fun v =>
        [Token.fieldValue field_name (map_modifier modifier)
           (__prepare_windash_value v),
         or_token]).flatten
    Token.identifier GroupType.L_PAREN ::
      (tokens.dropLast ++ [Token.identifier GroupType.R_PAREN])
  | TValue.str v =>
    [Token.fieldValue field_name (map_modifier modifier)
       (__prepare_windash_value v)]

/-- Embedding of `ModifierManager.apply_multi_modifier`: dispatch on the
last modifier; `modifier[-1]` and `modifier[0]` on an empty list raise
`IndexError`, and an unknown terminal modifier raises
`NotImplementedError`. -/
def apply_multi_modifier (field_name : String) (modifier : List String)
    (values : TValue) : Except SigmaError (List Token) :=
  match modifier.getLast? with
  | none => Except.error SigmaError.indexError
  | some lastModifier =>
    if lastModifier == "all" then
      match modifier.head? with
      | none => Except.error SigmaError.indexError
      | some firstModifier =>
        Except.ok (modifier_all field_name firstModifier values)
    else if lastModifier == "windash" then
      match modifier.head? with
      | none => Except.error SigmaError.indexError
      | some firstModifier =>
        Except.ok (modifier_windash field_name firstModifier values)
    else Except.error SigmaError.notImplemented

/-- Embedding of `ModifierManager.apply_modifier`: take the single modifier;
`windash` is rewritten to the `EQ` operator and routed through
`modifier_windash`; otherwise a single `FieldValue` with the mapped
modifier is produced. -/
def apply_modifier (field_name : String) (modifier : List String)
    (values : TValue) : Except SigmaError (List Token) :=
  match modifier.head? with
  | none => Except.error SigmaError.indexError
  | some m =>
    if m == "windash" then
      Except.ok (modifier_windash field_name OperatorType.EQ values)
    else
      Except.ok [Token.fieldValue field_name (map_modifier m) values]

/-- Embedding of `ModifierManager.__validate_modifiers` on a modifier list:
a list longer than `_MULTY_MODIFIER_LEN` raises (a bare `raise`); otherwise
`all` of the element-wise recursive calls, each of which hits the final
`return True` because elements are strings. -/
def __validate_modifiers (modifiers : List String) : Except SigmaError Bool :=
  if modifiers.length > _MULTY_MODIFIER_LEN then Except.error SigmaError.bareRaise
  else Except.ok (modifiers.all fun _ => true)

/-- Embedding of `ModifierManager.create_token`: a modifier list of length
`_MULTY_MODIFIER_LEN` goes to `apply_multi_modifier`, anything else to
`apply_modifier`. -/
def create_token (field_name : String) (modifier : List String)
    (value : TValue) : Except SigmaError (List Token) :=
  if modifier.length == _MULTY_MODIFIER_LEN then
    apply_multi_modifier field_name modifier value
  else apply_modifier field_name modifier value

/-- Embedding of `ModifierManager.generate`: validate, then build tokens.
Python returns `None` when validation returns `False` (dead code, kept as
the `none` result). -/
def generate (field_name : String) (modifier : List String) (value : TValue) :
    Except SigmaError (Option (List Token)) :=
  match __validate_modifiers modifier with
  | Except.error e => Except.error e
  | Except.ok true => (create_token field_name modifier value).map some
  | Except.ok false => Except.ok none

/-- AND/OR-joined token sequence as the spec words it: the separator token
between consecutive elements. -/
def joinSep (sep : Token) : List Token → List Token
  | [] => []
  | [t] => [t]
  | t :: ts => t :: sep :: joinSep sep ts

/- CTI chunker (cti_translator.py). ------------------------------------ -/

/-- Embedding of `IocsChunkValue` from `core/models/iocs.py` via its
construction site in `_get_iocs_chunk`. -/
structure IocsChunkValue where
  generic_field : String
  platform_field : String
  value : String
deriving DecidableEq

/-- The record-building loops of `CTIConverter._get_iocs_chunk`: for each
`(generic_field, iocs_list)` pair of `data` in order and each `ioc` in
order, append a record when `mapping.get(generic_field)` is truthy (present
and non-empty). -/
def _get_iocs_chunk_flat (data : List (String × List String))
    (mapping : List (String × String)) : List IocsChunkValue :=
  data.foldl
    (fun result gi =>
      gi.2.foldl
        (fun result ioc =>
          match mapping.lookup gi.1 with
          | some platformField =>
            if platformField ≠ "" then
              result ++ [⟨gi.1, platformField, ioc⟩]
            else result
          | none => result)
        result)
    []

/-- The slicing comprehension of `_get_iocs_chunk`:
`[result[i : i + k] for i in range(0, len(result), k)]` for `k ≥ 1`
(Python raises `ValueError` on step `0`; that case returns `[]` here and is
outside every claim). -/
def chunkify (k : Nat) : List α → List (List α)
  | [] => []
  | x :: xs =>
    match k with
    | 0 => []
    | kk + 1 =>
      (x :: xs).take (kk + 1) :: chunkify (kk + 1) ((x :: xs).drop (kk + 1))
termination_by l => l.length
decreasing_by
  simp only [List.length_drop, List.length_cons]
  omega

/-- Embedding of `CTIConverter._get_iocs_chunk`. -/
def _get_iocs_chunk (chunks_size : Nat) (data : List (String × List String))
    (mapping : List (String × String)) : List (List IocsChunkValue) :=
  chunkify chunks_size (_get_iocs_chunk_flat data mapping)

/-- The claim's description of the record sequence: the `IocsChunkValue`
records built from each `(generic_field, ioc)` pair whose generic field has
a non-empty mapping entry, in input iteration order. -/
def iocs_records_claim (data : List (String × List String))
    (mapping : List (String × String)) : List IocsChunkValue :=
  (data.map fun gi =>
    match mapping.lookup gi.1 with
    | some platformField =>
      if platformField ≠ "" then
        gi.2.map fun ioc => (⟨gi.1, platformField, ioc⟩ : IocsChunkValue)
      else []
    | none => []).flatten

/- MITRE catalog (core/mitre.py). -------------------------------------- -/

/-- One element of an entry's `external_references` list. -/
structure MitreRef where
  source_name : String
  external_id : String
  url : String
deriving DecidableEq

/-- One element of an entry's `kill_chain_phases` list. -/
structure KillChainPhase where
  kill_chain_name : String
  phase_name : String
deriving DecidableEq

/-- A STIX object of the MITRE CTI bundle, restricted to the keys the code
reads; keys read with `.get` default to falsy values, and the keys read by
subscription are modelled with the same defaults. -/
structure MitreObject where
  type : String
  revoked : Bool := false
  x_mitre_deprecated : Bool := false
  x_mitre_is_subtechnique : Bool := false
  x_mitre_shortname : String := ""
  name : String := ""
  external_references : List MitreRef := []
  kill_chain_phases : List KillChainPhase := []
deriving DecidableEq

/-- A row of the `tactics` table. -/
structure TacticRecord where
  external_id : String
  url : String
  tactic : String
deriving DecidableEq

/-- A row of the `techniques` table. -/
structure TechniqueRecord where
  technique_id : String
  technique : String
  url : String
  tactic : List String
deriving DecidableEq

/-- Python `dict` read (`d.get(k)`): the value of the last write of `k`. -/
def dictGet (table : List (String × α)) (key : String) : Option α :=
  table.reverse.lookup key

/-- Embedding of `MitreConfig.__revoked_or_deprecated`. -/
def revoked_or_deprecated (entry : MitreObject) : Bool :=
  entry.revoked || entry.x_mitre_deprecated

/-- The `mitre_source_types` class attribute. -/
def mitre_source_types : List String := ["mitre-attack"]

/-- The snake-case key under which a tactic is stored:
`name.replace(" ", "_").lower()`. -/
def tacticKey (name : String) : String :=
  pyLower (pyReplaceAllChar ' ' '_' name)

/-- Pass 1 of `MitreConfig.update_mitre_config`: build `tactic_map`
(shortname to display name) and the `tactics` table from non-revoked
`x-mitre-tactic` entries, using the first `mitre-attack` reference; the
loop's in-order dictionary writes are collected front to back. -/
def pass_tactics : List MitreObject →
    List (String × String) × List (String × TacticRecord)
  | [] => ([], [])
  | entry :: objects =>
    let rest := pass_tactics objects
    if entry.type != "x-mitre-tactic" || revoked_or_deprecated entry then rest
    else
      match entry.external_references.find?
          (fun r => r.source_name == "mitre-attack") with
      | some ref =>
        ((entry.x_mitre_shortname, entry.name) :: rest.1,
         (tacticKey entry.name,
          ⟨ref.external_id, ref.url, entry.name⟩) :: rest.2)
      | none => rest

/-- The kill-chain loop of pass 2: map each phase whose `kill_chain_name`
is a MITRE source type through `tactic_map`; a missing shortname raises
`KeyError`. -/
def subTacticsOf (tactic_map : List (String × String)) :
    List KillChainPhase → Except Unit (List String)
  | [] => Except.ok []
  | phase :: phases =>
    if mitre_source_types.contains phase.kill_chain_name then
      match dictGet tactic_map phase.phase_name with
      | some tacticName => (subTacticsOf tactic_map phases).map (tacticName :: ·)
      | none => Except.error ()
    else subTacticsOf tactic_map phases

/-- Pass 2 of `update_mitre_config`: build `technique_map` and the
`techniques` table from non-revoked, non-subtechnique `attack-pattern`
entries, using the first reference whose source is a MITRE source type. -/
def pass_techniques (tactic_map : List (String × String)) :
    List MitreObject →
    Except Unit (List (String × String) × List (String × TechniqueRecord))
  | [] => Except.ok ([], [])
  | entry :: objects =>
    if entry.type != "attack-pattern" || revoked_or_deprecated entry
        || entry.x_mitre_is_subtechnique then
      pass_techniques tactic_map objects
    else
      match entry.external_references.find?
          (fun r => mitre_source_types.contains r.source_name) with
      | none => pass_techniques tactic_map objects
      | some ref => do
        let subTactics ← subTacticsOf tactic_map entry.kill_chain_phases
        let rest ← pass_techniques tactic_map objects
        Except.ok
          ((ref.external_id, entry.name) :: rest.1,
           (pyLower ref.external_id,
            ⟨ref.external_id, entry.name, ref.url, subTactics⟩) :: rest.2)

/-- The parent technique id of a subtechnique id: `id.split(".")[0]`, the
prefix before the first dot (the whole id when there is none). -/
def parentIdOf (external_id : String) : String :=
  String.mk (external_id.data.takeWhile fun c => !(c == '.'))

/-- Pass 3 of `update_mitre_config`: add subtechnique rows, resolving the
parent display name through `technique_map` (`KeyError` on a miss) and
inheriting the parent's tactic list from the `techniques` table built so
far. -/
def pass_subtechniques (technique_map : List (String × String)) :
    List MitreObject → List (String × TechniqueRecord) →
    Except Unit (List (String × TechniqueRecord))
  | [], techniques => Except.ok techniques
  | entry :: objects, techniques =>
    if entry.type != "attack-pattern" || revoked_or_deprecated entry then
      pass_subtechniques technique_map objects techniques
    else if !entry.x_mitre_is_subtechnique then
      pass_subtechniques technique_map objects techniques
    else
      match entry.external_references.find?
          (fun r => mitre_source_types.contains r.source_name) with
      | none => pass_subtechniques technique_map objects techniques
      | some ref =>
        match dictGet technique_map (parentIdOf ref.external_id) with
        | none => Except.error ()
        | some parentName =>
          let parentTactics :=
            ((dictGet techniques (pyLower (parentIdOf ref.external_id))).map
              (fun r => r.tactic)).getD []
          pass_subtechniques technique_map objects
            (techniques ++
             [(pyLower ref.external_id,
               ⟨ref.external_id, parentName ++ " : " ++ entry.name, ref.url,
                parentTactics⟩)])

/-- Embedding of the bundle-processing portion of
`MitreConfig.update_mitre_config`: the three ordered passes over
`mitre_json["objects"]`, producing the `tactics` and `techniques` tables
(an uncaught `KeyError` is `Except.error`). -/
def update_mitre_config (objects : List MitreObject) :
    Except Unit (List (String × TacticRecord) × List (String × TechniqueRecord)) := do
  let tacticsPass := pass_tactics objects
  let techniquesPass ← pass_techniques tacticsPass.1 objects
  let techniques ← pass_subtechniques techniquesPass.1 objects techniquesPass.2
  Except.ok (tacticsPass.2, techniques)

/-- Embedding of `MitreConfig.get_tactic`: replace dots with underscores,
then read the `tactics` table; `none` stands for the `{}` default. -/
def get_tactic (tactics : List (String × TacticRecord)) (tactic : String) :
    Option TacticRecord :=
  dictGet tactics (pyReplaceAllChar '.' '_' tactic)

/-- Embedding of `MitreConfig.get_technique`: read the `techniques` table;
`none` stands for the `{}` default. -/
def get_technique (techniques : List (String × TechniqueRecord))
    (technique_id : String) : Option TechniqueRecord :=
  dictGet techniques technique_id

/- MetaInfoContainer (core/models/parser_output.py). ------------------- -/

/-- Embedding of `MetaInfoContainer` after construction. -/
structure MetaInfoContainer where
  id : String
  title : String
  description : String
  author : String
  date : String
  license : String
  severity : String
  references : List String
  tags : List String
  mitre_attack : List (String × List String)
  status : String
  false_positives : List String
  source_mapping_ids : List String
deriving DecidableEq

/-- Python `x or default` for an optional string argument: `None` and the
empty string are falsy. -/
def pyOrS (v : Option String) (d : String) : String :=
  match v with
  | some s => if s = "" then d else s
  | none => d

/-- Python `x or default` for an optional list argument: `None` and the
empty list are falsy. -/
def pyOrL (v : Option (List α)) (d : List α) : List α :=
  match v with
  | some [] => d
  | some (x :: xs) => x :: xs
  | none => d

/-- Embedding of `MetaInfoContainer.__init__`.  The fresh UUID produced by
`str(uuid.uuid4())` and today's ISO date produced by
`datetime.now().date().strftime("%Y-%m-%d")` are explicit parameters. -/
def mkMetaInfoContainer (freshUuid todayDate : String)
    (id_ title description author date license_ severity : Option String)
    (references tags : Option (List String))
    (mitre_attack : Option (List (String × List String)))
    (status : Option String)
    (false_positives source_mapping_ids : Option (List String)) :
    MetaInfoContainer :=
  { id := pyOrS id_ freshUuid
    title := pyOrS title ""
    description := pyOrS description ""
    author := pyOrS author ""
    date := pyOrS date todayDate
    license := pyOrS license_ "DRL 1.1"
    severity := pyOrS severity SeverityType.low
    references := pyOrL references []
    tags := pyOrL tags []
    mitre_attack := pyOrL mitre_attack []
    status := pyOrS status "stable"
    false_positives := pyOrL false_positives []
    source_mapping_ids := pyOrL source_mapping_ids [DEFAULT_MAPPING_NAME] }

/-- Falsy test for an optional string argument. -/
def falsyS (v : Option String) : Prop := v = none ∨ v = some ""

/-- Falsy test for an optional list argument. -/
def falsyL (v : Option (List α)) : Prop := v = none ∨ v = some []

/- Helper lemmas: characters and stripping. ---------------------------- -/

lemma contains_single_eq (c x : Char) : ([c].contains x) = (x == c) := by
  cases hxc : x == c <;> simp [List.contains, List.elem, hxc]

lemma contains_single_self (c : Char) : ([c].contains c) = true := by
  rw [contains_single_eq]
  exact beq_self_eq_true c

lemma contains_single_ne {c a : Char} (h : a ≠ c) : ([c].contains a) = false := by
  rw [contains_single_eq]
  exact beq_eq_false_iff_ne.mpr h

lemma head_ne_of_not_mem {c a : Char} {t : List Char} (h : c ∉ a :: t) :
    a ≠ c := by
  intro hac
  refine h ?_
  rw [hac]
  exact List.mem_cons_self c t

lemma dropWhile_contains_single (c : Char) (l : List Char) (h : c ∉ l) :
    l.dropWhile (fun x => [c].contains x) = l := by
  cases l with
  | nil => rfl
  | cons a t =>
    have ha := contains_single_ne (head_ne_of_not_mem h)
    simp only [List.dropWhile_cons, ha]
    simp

lemma dropWhile_contains_single_cons (c : Char) (l : List Char) :
    (c :: l).dropWhile (fun x => [c].contains x)
      = l.dropWhile (fun x => [c].contains x) := by
  simp only [List.dropWhile_cons, contains_single_self]
  simp

lemma pyStartswith_single_self (c : Char) (l : List Char) :
    pyStartswith [c] (c :: l) = true := by
  simp [pyStartswith]

lemma pyStartswith_single_of_not_mem (c : Char) (s : List Char) (h : c ∉ s) :
    pyStartswith [c] s = false := by
  cases s with
  | nil => rfl
  | cons a t =>
    have ha := head_ne_of_not_mem h
    simp [pyStartswith]
    exact fun hca => absurd hca.symm ha

lemma pyEndswith_single_of_not_mem (c : Char) (s : List Char) (h : c ∉ s) :
    pyEndswith [c] s = false := by
  have h' : c ∉ s.reverse := by simpa using h
  simpa [pyEndswith] using pyStartswith_single_of_not_mem c s.reverse h'

lemma pyEndswith_single_append (c : Char) (s : List Char) :
    pyEndswith [c] (s ++ [c]) = true := by
  simp [pyEndswith, pyStartswith]

lemma pyStartswith_single_append_of_ne (c : Char) (s l : List Char)
    (hne : s ≠ []) (h : c ∉ s) : pyStartswith [c] (s ++ l) = false := by
  cases s with
  | nil => exact absurd rfl hne
  | cons a t =>
    have ha := head_ne_of_not_mem h
    simp [pyStartswith]
    exact fun hca => absurd hca.symm ha

lemma pyEndswith_single_cons_of_ne (c : Char) (s : List Char)
    (hne : s ≠ []) (h : c ∉ s) : pyEndswith [c] (c :: s) = false := by
  have hne' : s.reverse ≠ [] := by simpa using hne
  have h' : c ∉ s.reverse := by simpa using h
  simpa [pyEndswith] using
    pyStartswith_single_append_of_ne c s.reverse [c] hne' h'

lemma pyStrip_single_of_not_mem (c : Char) (s : List Char) (h : c ∉ s) :
    pyStrip [c] s = s := by
  have h' : c ∉ s.reverse := by simpa using h
  simp only [pyStrip]
  rw [dropWhile_contains_single c s h, dropWhile_contains_single c s.reverse h',
    List.reverse_reverse]

lemma pyStrip_single_left (c : Char) (s : List Char) (h : c ∉ s) :
    pyStrip [c] (c :: s) = s := by
  have h' : c ∉ s.reverse := by simpa using h
  simp only [pyStrip]
  rw [dropWhile_contains_single_cons, dropWhile_contains_single c s h,
    dropWhile_contains_single c s.reverse h', List.reverse_reverse]

lemma pyStrip_single_right (c : Char) (s : List Char) (h : c ∉ s) :
    pyStrip [c] (s ++ [c]) = s := by
  cases s with
  | nil =>
    simp only [pyStrip, List.nil_append]
    rw [dropWhile_contains_single_cons]
    rfl
  | cons a t =>
    have ha := contains_single_ne (head_ne_of_not_mem h)
    have h3 : c ∉ (a :: t).reverse := fun hc => h (List.mem_reverse.mp hc)
    have h1 : ((a :: t) ++ [c]).dropWhile (fun x => [c].contains x)
        = (a :: t) ++ [c] := by
      simp only [List.cons_append, List.dropWhile_cons, ha]
      simp
    simp only [pyStrip]
    rw [h1]
    have h2 : ((a :: t) ++ [c]).reverse = c :: (a :: t).reverse := by simp
    rw [h2, dropWhile_contains_single_cons,
      dropWhile_contains_single c (a :: t).reverse h3, List.reverse_reverse]

lemma pyStrip_single_both (c : Char) (s : List Char) (h : c ∉ s) :
    pyStrip [c] (c :: s ++ [c]) = s := by
  have hstep : (c :: s ++ [c]).dropWhile (fun x => [c].contains x)
      = (s ++ [c]).dropWhile (fun x => [c].contains x) := by
    simp only [List.cons_append]
    exact dropWhile_contains_single_cons c (s ++ [c])
  cases s with
  | nil =>
    simp only [pyStrip, hstep, List.nil_append]
    rw [dropWhile_contains_single_cons]
    rfl
  | cons a t =>
    have ha := contains_single_ne (head_ne_of_not_mem h)
    have h3 : c ∉ (a :: t).reverse := fun hc => h (List.mem_reverse.mp hc)
    have h1 : ((a :: t) ++ [c]).dropWhile (fun x => [c].contains x)
        = (a :: t) ++ [c] := by
      simp only [List.cons_append, List.dropWhile_cons, ha]
      simp
    simp only [pyStrip, hstep]
    rw [h1]
    have h2 : ((a :: t) ++ [c]).reverse = c :: (a :: t).reverse := by simp
    rw [h2, dropWhile_contains_single_cons,
      dropWhile_contains_single c (a :: t).reverse h3, List.reverse_reverse]

/-- C1 (amended): for a single-character wildcard symbol `c` and a string
`s` containing no occurrence of `c`, and a non-REGEX operator,
`process_value_wildcard_symbols` maps the value bracketed by the wildcard on
both sides to CONTAINS with the bookends stripped; for nonempty `s` it maps
the left-bracketed value to ENDSWITH and the right-bracketed value to
STARTSWITH; the bare value keeps the original operator; and a REGEX
operator whose value is not bracketed by the wildcard on both sides stays
REGEX with the wildcard bookends stripped.  (For empty `s` the one-sided
values both equal the bare wildcard, which is bracketed on both sides and
yields CONTAINS — the unamended claim fails there.) -/
theorem wildcard_normalization (c : Char) (op : String) (s : List Char)
    (hmem : c ∉ s) (hop : op ≠ OperatorType.REGEX) :
    process_value_wildcard_symbols (c :: s ++ [c]) op (some [c])
      = (s, Token.identifier OperatorType.CONTAINS)
    ∧ (s ≠ [] → process_value_wildcard_symbols (c :: s) op (some [c])
      = (s, Token.identifier OperatorType.ENDSWITH))
    ∧ (s ≠ [] → process_value_wildcard_symbols (s ++ [c]) op (some [c])
      = (s, Token.identifier OperatorType.STARTSWITH))
    ∧ process_value_wildcard_symbols s op (some [c])
      = (s, Token.identifier op)
    ∧ (∀ v : List Char,
        ¬(pyStartswith [c] v = true ∧ pyEndswith [c] v = true) →
        process_value_wildcard_symbols v OperatorType.REGEX (some [c])
          = (pyStrip [c] v, Token.identifier OperatorType.REGEX)) := by
  have hopb : (op == OperatorType.REGEX) = false := by
    simpa [beq_iff_eq] using hop
  refine ⟨?_, ?_, ?_, ?_, ?_⟩
  · have hend : pyEndswith [c] (c :: (s ++ [c])) = true := by
      rw [← List.cons_append]
      exact pyEndswith_single_append c (c :: s)
    simp [process_value_wildcard_symbols, _clean_value, __get_operator_token,
      hopb, pyStartswith_single_self, hend]
    exact pyStrip_single_both c s hmem
  · intro hne
    simp [process_value_wildcard_symbols, _clean_value, __get_operator_token,
      hopb, pyStartswith_single_self,
      pyEndswith_single_cons_of_ne c s hne hmem,
      pyStrip_single_left c s hmem]
  · intro hne
    simp [process_value_wildcard_symbols, _clean_value, __get_operator_token,
      hopb, pyStartswith_single_append_of_ne c s [c] hne hmem,
      pyEndswith_single_append, pyStrip_single_right c s hmem]
  · simp [process_value_wildcard_symbols, _clean_value, __get_operator_token,
      hopb, pyStartswith_single_of_not_mem c s hmem,
      pyEndswith_single_of_not_mem c s hmem,
      pyStrip_single_of_not_mem c s hmem]
  · intro v hv
    have hb : (pyStartswith [c] v && pyEndswith [c] v) = false := by
      cases h1 : pyStartswith [c] v <;> cases h2 : pyEndswith [c] v <;>
        simp_all
    simp [process_value_wildcard_symbols, _clean_value, __get_operator_token,
      hb]

/-- Witness for `wildcard_normalization` at the wildcard `*`, the value
characters `ab`, and the operator `=`. -/
theorem wildcard_normalization_witness :
    process_value_wildcard_symbols ['*', 'a', 'b', '*'] "=" (some ['*'])
      = (['a', 'b'], Token.identifier OperatorType.CONTAINS)
    ∧ process_value_wildcard_symbols ['*', 'a', 'b'] "=" (some ['*'])
      = (['a', 'b'], Token.identifier OperatorType.ENDSWITH)
    ∧ process_value_wildcard_symbols ['a', 'b', '*'] "=" (some ['*'])
      = (['a', 'b'], Token.identifier OperatorType.STARTSWITH)
    ∧ process_value_wildcard_symbols ['a', 'b'] "=" (some ['*'])
      = (['a', 'b'], Token.identifier "=")
    ∧ process_value_wildcard_symbols ['a', 'b', '*'] OperatorType.REGEX
        (some ['*'])
      = (pyStrip ['*'] ['a', 'b', '*'], Token.identifier OperatorType.REGEX) := by
  have h := wildcard_normalization '*' "=" ['a', 'b'] (by decide) (by decide)
  exact ⟨h.1, h.2.1 (by decide), h.2.2.1 (by decide), h.2.2.2.1,
    h.2.2.2.2 ['a', 'b', '*'] (by decide)⟩

/-- Counterexample to C1 as stated: for the empty string `s` (which contains
no wildcard), the value made of a leading wildcard and `s` is the bare
wildcard; the claim predicts ENDSWITH, but the code yields CONTAINS. -/
theorem wildcard_normalization_empty_cex :
    ¬ (process_value_wildcard_symbols ['*'] "=" (some ['*'])
        = ([], Token.identifier OperatorType.ENDSWITH)) := by decide

/- C2 helpers: a counter form of the validation loop. ------------------ -/

/-- Counter form of the validation loop: the stack only ever holds
left-paren identifiers, so only its depth matters. -/
def balAux : Nat → List Token → Bool
  | d, [] => d == 0
  | d, t :: ts =>
    if isLParenTok t then balAux (d + 1) ts
    else if isRParenTok t then
      match d with
      | 0 => false
      | e + 1 => balAux e ts
    else balAux d ts

lemma isRParenTok_eq_false_of_isL {t : Token} (h : isLParenTok t = true) :
    isRParenTok t = false := by
  cases t with
  | identifier tt =>
    simp only [isLParenTok, beq_iff_eq] at h
    simp only [isRParenTok, h]
    decide
  | fieldValue f op v => rfl
  | keyword v => rfl

lemma identTypeOf_of_isL {t : Token} (h : isLParenTok t = true) :
    identTypeOf t = GroupType.L_PAREN := by
  cases t with
  | identifier tt =>
    simp only [isLParenTok, beq_iff_eq] at h
    simp [identTypeOf, h]
  | fieldValue f op v => simp [isLParenTok] at h
  | keyword v => simp [isLParenTok] at h

lemma countLParen_cons (t : Token) (ts : List Token) :
    countLParen (t :: ts)
      = countLParen ts + (if isLParenTok t then 1 else 0) := by
  simp [countLParen, List.countP_cons]

lemma countRParen_cons (t : Token) (ts : List Token) :
    countRParen (t :: ts)
      = countRParen ts + (if isRParenTok t then 1 else 0) := by
  simp [countRParen, List.countP_cons]

lemma validate_loop_eq_balAux :
    ∀ (ts stack : List Token), (∀ t ∈ stack, isLParenTok t = true) →
    validate_parentheses_loop stack ts = balAux stack.length ts := by
  intro ts
  induction ts with
  | nil =>
    intro stack hstack
    cases stack <;> simp [validate_parentheses_loop, balAux]
  | cons t ts ih =>
    intro stack hstack
    cases t with
    | identifier tt =>
      by_cases hL : (tt == GroupType.L_PAREN) = true
      · have hLtok : isLParenTok (Token.identifier tt) = true := by
          simpa [isLParenTok] using hL
        have hext : ∀ t ∈ Token.identifier tt :: stack, isLParenTok t = true := by
          intro t ht
          rcases List.mem_cons.mp ht with h | h
          · rw [h]; exact hLtok
          · exact hstack t h
        calc validate_parentheses_loop stack (Token.identifier tt :: ts)
            = validate_parentheses_loop (Token.identifier tt :: stack) ts := by
              simp [validate_parentheses_loop, hL]
          _ = balAux (stack.length + 1) ts := by
              rw [ih (Token.identifier tt :: stack) hext]
              simp
          _ = balAux stack.length (Token.identifier tt :: ts) := by
              simp [balAux, hLtok]
      · by_cases hR : (tt == GroupType.R_PAREN) = true
        · have hLtok : isLParenTok (Token.identifier tt) = false := by
            simpa [isLParenTok] using hL
          have hRtok : isRParenTok (Token.identifier tt) = true := by
            simpa [isRParenTok] using hR
          cases stack with
          | nil =>
            simp [validate_parentheses_loop, hL, hR, balAux, hLtok, hRtok]
          | cons top rest =>
            have htop : identTypeOf top = GroupType.L_PAREN :=
              identTypeOf_of_isL (hstack top (List.mem_cons_self top rest))
            have htopne : (identTypeOf top == GroupType.R_PAREN) = false := by
              rw [htop]; decide
            calc validate_parentheses_loop (top :: rest)
                  (Token.identifier tt :: ts)
                = validate_parentheses_loop rest ts := by
                  simp [validate_parentheses_loop, hL, hR, htopne]
              _ = balAux rest.length ts := by
                  exact ih rest fun t ht => hstack t (List.mem_cons_of_mem top ht)
              _ = balAux (top :: rest).length (Token.identifier tt :: ts) := by
                  simp [balAux, hLtok, hRtok]
        · have hLtok : isLParenTok (Token.identifier tt) = false := by
            simpa [isLParenTok] using hL
          have hRtok : isRParenTok (Token.identifier tt) = false := by
            simpa [isRParenTok] using hR
          calc validate_parentheses_loop stack (Token.identifier tt :: ts)
              = validate_parentheses_loop stack ts := by
                simp [validate_parentheses_loop, hL, hR]
            _ = balAux stack.length ts := ih stack hstack
            _ = balAux stack.length (Token.identifier tt :: ts) := by
                simp [balAux, hLtok, hRtok]
    | fieldValue f op v =>
      calc validate_parentheses_loop stack (Token.fieldValue f op v :: ts)
          = validate_parentheses_loop stack ts := by
            simp [validate_parentheses_loop]
        _ = balAux stack.length ts := ih stack hstack
        _ = balAux stack.length (Token.fieldValue f op v :: ts) := by
            simp [balAux, isLParenTok, isRParenTok]
    | keyword kv =>
      calc validate_parentheses_loop stack (Token.keyword kv :: ts)
          = validate_parentheses_loop stack ts := by
            simp [validate_parentheses_loop]
        _ = balAux stack.length ts := ih stack hstack
        _ = balAux stack.length (Token.keyword kv :: ts) := by
            simp [balAux, isLParenTok, isRParenTok]

lemma balAux_iff : ∀ (ts : List Token) (d : Nat),
    balAux d ts = true ↔
      (countRParen ts = d + countLParen ts ∧
       ∀ p s, ts = p ++ s → countRParen p ≤ d + countLParen p) := by
  intro ts
  induction ts with
  | nil =>
    intro d
    constructor
    · intro h
      simp only [balAux, beq_iff_eq] at h
      subst h
      refine ⟨by simp [countLParen, countRParen], ?_⟩
      intro p s hps
      obtain ⟨hp, hs⟩ := List.append_eq_nil.mp hps.symm
      subst hp
      simp [countLParen, countRParen]
    · rintro ⟨h1, h2⟩
      simp only [countLParen, countRParen, List.countP_nil] at h1
      simp [balAux]
      omega
  | cons t ts ih =>
    intro d
    by_cases hl : isLParenTok t = true
    · have hr := isRParenTok_eq_false_of_isL hl
      have hstep : balAux d (t :: ts) = balAux (d + 1) ts := by
        simp [balAux, hl]
      rw [hstep, ih (d + 1)]
      constructor
      · rintro ⟨h1, h2⟩
        refine ⟨?_, ?_⟩
        · rw [countRParen_cons, countLParen_cons]
          simp [hl, hr]
          omega
        · intro p s hps
          cases p with
          | nil => simp [countLParen, countRParen]
          | cons a q =>
            simp only [List.cons_append, List.cons.injEq] at hps
            obtain ⟨rfl, hq⟩ := hps
            have := h2 q s hq
            rw [countRParen_cons, countLParen_cons]
            simp [hl, hr]
            omega
      · rintro ⟨h1, h2⟩
        rw [countRParen_cons, countLParen_cons] at h1
        simp [hl, hr] at h1
        refine ⟨by omega, ?_⟩
        intro p s hps
        have := h2 (t :: p) s (by rw [hps, List.cons_append])
        rw [countRParen_cons, countLParen_cons] at this
        simp [hl, hr] at this
        omega
    · by_cases hrr : isRParenTok t = true
      · have hlf : isLParenTok t = false := by
          cases h : isLParenTok t
          · rfl
          · exact absurd h hl
        cases d with
        | zero =>
          have hstep : balAux 0 (t :: ts) = false := by
            simp [balAux, hlf, hrr]
          rw [hstep]
          constructor
          · intro h
            exact absurd h (by simp)
          · rintro ⟨h1, h2⟩
            have := h2 [t] ts rfl
            rw [countRParen_cons, countLParen_cons] at this
            simp [hlf, hrr, countLParen, countRParen] at this
        | succ e =>
          have hstep : balAux (e + 1) (t :: ts) = balAux e ts := by
            simp [balAux, hlf, hrr]
          rw [hstep, ih e]
          constructor
          · rintro ⟨h1, h2⟩
            refine ⟨?_, ?_⟩
            · rw [countRParen_cons, countLParen_cons]
              simp [hlf, hrr]
              omega
            · intro p s hps
              cases p with
              | nil => simp [countLParen, countRParen]
              | cons a q =>
                simp only [List.cons_append, List.cons.injEq] at hps
                obtain ⟨rfl, hq⟩ := hps
                have := h2 q s hq
                rw [countRParen_cons, countLParen_cons]
                simp [hlf, hrr]
                omega
          · rintro ⟨h1, h2⟩
            rw [countRParen_cons, countLParen_cons] at h1
            simp [hlf, hrr] at h1
            refine ⟨by omega, ?_⟩
            intro p s hps
            have := h2 (t :: p) s (by rw [hps, List.cons_append])
            rw [countRParen_cons, countLParen_cons] at this
            simp [hlf, hrr] at this
            omega
      · have hlf : isLParenTok t = false := by
          cases h : isLParenTok t
          · rfl
          · exact absurd h hl
        have hrf : isRParenTok t = false := by
          cases h : isRParenTok t
          · rfl
          · exact absurd h hrr
        have hstep : balAux d (t :: ts) = balAux d ts := by
          simp [balAux, hlf, hrf]
        rw [hstep, ih d]
        constructor
        · rintro ⟨h1, h2⟩
          refine ⟨?_, ?_⟩
          · rw [countRParen_cons, countLParen_cons]
            simp only [hlf, hrf, if_false]
            omega
          · intro p s hps
            cases p with
            | nil => simp [countLParen, countRParen]
            | cons a q =>
              simp only [List.cons_append, List.cons.injEq] at hps
              obtain ⟨rfl, hq⟩ := hps
              have := h2 q s hq
              rw [countRParen_cons, countLParen_cons]
              simp only [hlf, hrf, if_false]
              omega
        · rintro ⟨h1, h2⟩
          rw [countRParen_cons, countLParen_cons] at h1
          simp only [hlf, hrf, if_false] at h1
          refine ⟨by omega, ?_⟩
          intro p s hps
          have := h2 (t :: p) s (by rw [hps, List.cons_append])
          rw [countRParen_cons, countLParen_cons] at this
          simp only [hlf, hrf, if_false] at this
          omega

/-- C2: `_validate_parentheses` raises `QueryParenthesesException` (here:
returns `false`) exactly when the token stream is unbalanced — some prefix
holds more right parens than left parens, or the totals differ.
Consequently every token list that `tokenize` returns without raising (it
calls `_validate_parentheses` on the full stream before returning) has
equal left- and right-paren counts and no prefix with an excess of right
parens. -/
theorem validate_parentheses_unbalanced_iff (tokens : List Token) :
    _validate_parentheses tokens = false ↔
      ((∃ p s, tokens = p ++ s ∧ countLParen p < countRParen p) ∨
       countLParen tokens ≠ countRParen tokens) := by
  have hloop : _validate_parentheses tokens = balAux 0 tokens := by
    rw [show _validate_parentheses tokens
        = validate_parentheses_loop [] tokens from rfl]
    have := validate_loop_eq_balAux tokens [] (by intro t ht; cases ht)
    simpa using this
  rw [hloop, Bool.eq_false_iff, Ne, balAux_iff tokens 0]
  constructor
  · intro h
    by_cases h1 : countRParen tokens = 0 + countLParen tokens
    · have h2 : ¬ ∀ p s, tokens = p ++ s →
          countRParen p ≤ 0 + countLParen p := fun hb => h ⟨h1, hb⟩
      push_neg at h2
      obtain ⟨p, s, hps, hlt⟩ := h2
      exact Or.inl ⟨p, s, hps, by omega⟩
    · exact Or.inr (by omega)
  · rintro (⟨p, s, hps, hlt⟩ | hne) ⟨h1, h2⟩
    · have := h2 p s hps
      omega
    · omega

/- C3, C4, C5: the Sigma modifier engine. ------------------------------ -/

lemma flatten_pairs_dropLast (sep : Token) (f : α → Token) :
    ∀ vs : List α,
      ((vs.map fun v => [f v, sep]).flatten).dropLast = joinSep sep (vs.map f)
  | [] => by simp [joinSep]
  | [v] => by simp [joinSep]
  | v :: w :: vs => by
    have ih := flatten_pairs_dropLast sep f (w :: vs)
    have hne : (((w :: vs).map fun v => [f v, sep]).flatten) ≠ [] := by simp
    calc (((v :: w :: vs).map fun v => [f v, sep]).flatten).dropLast
        = ([f v, sep] ++ ((w :: vs).map fun v => [f v, sep]).flatten).dropLast := by
          simp
      _ = [f v, sep] ++ (((w :: vs).map fun v => [f v, sep]).flatten).dropLast := by
          rw [List.dropLast_append_of_ne_nil _ hne]
      _ = [f v, sep] ++ joinSep sep ((w :: vs).map f) := by rw [ih]
      _ = joinSep sep ((v :: w :: vs).map f) := by simp [joinSep]

lemma validate_modifiers_ok (ms : List String)
    (h : ms.length ≤ _MULTY_MODIFIER_LEN) :
    __validate_modifiers ms = Except.ok true := by
  have hn : ¬ ms.length > _MULTY_MODIFIER_LEN := by omega
  simp [__validate_modifiers, hn]

/-- C3: for every field name, modifier chain `[m, all]` and value list of
length at least two, `generate` returns the per-value `FieldValue` subtrees
AND-joined and wrapped in parens; for a scalar value or a singleton list it
returns a single `FieldValue` with no parens. -/
theorem generate_all_expansion (f m v : String) (vs : List String)
    (hlen : 2 ≤ vs.length) :
    generate f [m, "all"] (TValue.strs vs)
      = Except.ok (some
          (Token.identifier GroupType.L_PAREN ::
            (joinSep and_token
              (vs.map fun u =>
                Token.fieldValue f (map_modifier m) (TValue.str u))
              ++ [Token.identifier GroupType.R_PAREN])))
    ∧ generate f [m, "all"] (TValue.str v)
      = Except.ok (some [Token.fieldValue f (map_modifier m) (TValue.str v)])
    ∧ (∀ u : String, generate f [m, "all"] (TValue.strs [u])
      = Except.ok (some
          [Token.fieldValue f (map_modifier m) (TValue.strs [u])])) := by
  have hval := validate_modifiers_ok [m, "all"] (by simp [_MULTY_MODIFIER_LEN])
  have hone : (vs.length == 1) = false := by
    simp only [beq_eq_false_iff_ne, Ne]
    omega
  refine ⟨?_, ?_, ?_⟩
  · simp only [generate, hval, create_token, List.length_cons,
      List.length_nil, _MULTY_MODIFIER_LEN, apply_multi_modifier]
    simp only [List.getLast?_cons_cons, List.getLast?_singleton, beq_self_eq_true,
      if_true, List.head?_cons, Option.some.injEq, reduceIte]
    simp only [modifier_all, hone, Bool.false_eq_true, if_false,
      flatten_pairs_dropLast and_token
        (fun u => Token.fieldValue f (map_modifier m) (TValue.str u)) vs]
    rfl
  · simp only [generate, hval, create_token, List.length_cons,
      List.length_nil, _MULTY_MODIFIER_LEN, apply_multi_modifier]
    simp [modifier_all]
    rfl
  · intro u
    simp only [generate, hval, create_token, List.length_cons,
      List.length_nil, _MULTY_MODIFIER_LEN, apply_multi_modifier]
    simp [modifier_all]
    rfl

/-- Witness for `generate_all_expansion` at the spec's own example:
`CommandLine|contains|all` over the list `[-enc, powershell]`. -/
theorem generate_all_expansion_witness :
    generate "CommandLine" ["contains", "all"]
        (TValue.strs ["-enc", "powershell"])
      = Except.ok (some
          [Token.identifier GroupType.L_PAREN,
           Token.fieldValue "CommandLine" "contains" (TValue.str "-enc"),
           and_token,
           Token.fieldValue "CommandLine" "contains" (TValue.str "powershell"),
           Token.identifier GroupType.R_PAREN])
    ∧ generate "CommandLine" ["contains", "all"] (TValue.str "x")
      = Except.ok (some
          [Token.fieldValue "CommandLine" "contains" (TValue.str "x")]) := by
  have h := generate_all_expansion "CommandLine" "contains" "x"
    ["-enc", "powershell"] (by decide)
  constructor
  · rw [h.1]
    rfl
  · rw [h.2.1]
    rfl

lemma map_modifier_EQ : map_modifier OperatorType.EQ = OperatorType.EQ := by
  decide

/-- C4: a single `windash` modifier is rewritten to the `EQ` operator; a
scalar value starting with `/` is expanded to the pair of itself and itself
with the first `/` replaced by `-`, one starting with `-` to the pair with
the first `-` replaced by `/`, and any other scalar is kept unchanged; a
list of values yields the per-value windash expansions OR-joined and
wrapped in parens. -/
theorem apply_modifier_windash (f v : String) (vs : List String) :
    (pyStartswithS "/" v = true →
      apply_modifier f ["windash"] (TValue.str v)
        = Except.ok [Token.fieldValue f OperatorType.EQ
            (TValue.strs [v, pyReplaceFirst v '/' '-'])])
    ∧ (pyStartswithS "/" v = false → pyStartswithS "-" v = true →
      apply_modifier f ["windash"] (TValue.str v)
        = Except.ok [Token.fieldValue f OperatorType.EQ
            (TValue.strs [v, pyReplaceFirst v '-' '/'])])
    ∧ (pyStartswithS "/" v = false → pyStartswithS "-" v = false →
      apply_modifier f ["windash"] (TValue.str v)
        = Except.ok [Token.fieldValue f OperatorType.EQ (TValue.str v)])
    ∧ apply_modifier f ["windash"] (TValue.strs vs)
        = Except.ok (Token.identifier GroupType.L_PAREN ::
            (joinSep or_token
              (vs.map fun u =>
                Token.fieldValue f OperatorType.EQ (__prepare_windash_value u))
              ++ [Token.identifier GroupType.R_PAREN])) := by
  refine ⟨?_, ?_, ?_, ?_⟩
  · intro h1
    simp [apply_modifier, modifier_windash, __prepare_windash_value, h1,
      map_modifier_EQ]
  · intro h1 h2
    simp [apply_modifier, modifier_windash, __prepare_windash_value, h1, h2,
      map_modifier_EQ]
  · intro h1 h2
    simp [apply_modifier, modifier_windash, __prepare_windash_value, h1, h2,
      map_modifier_EQ]
  · simp only [apply_modifier, List.head?_cons, beq_self_eq_true, if_true,
      modifier_windash, map_modifier_EQ, reduceIte,
      flatten_pairs_dropLast or_token
        (fun u => Token.fieldValue f OperatorType.EQ (__prepare_windash_value u))
        vs]

/-- Witness for `apply_modifier_windash` at the spec's own example: the
value `-verb` expands under `EQ` to both `-verb` and `/verb`, and the
two-element list wraps the expansions in an OR disjunction. -/
theorem apply_modifier_windash_witness :
    apply_modifier "CommandLine" ["windash"] (TValue.str "-verb")
      = Except.ok [Token.fieldValue "CommandLine" "="
          (TValue.strs ["-verb", "/verb"])]
    ∧ apply_modifier "CommandLine" ["windash"] (TValue.strs ["-a", "b"])
      = Except.ok
          [Token.identifier GroupType.L_PAREN,
           Token.fieldValue "CommandLine" "=" (TValue.strs ["-a", "/a"]),
           or_token,
           Token.fieldValue "CommandLine" "=" (TValue.str "b"),
           Token.identifier GroupType.R_PAREN] := by
  have h := apply_modifier_windash "CommandLine" "-verb" ["-a", "b"]
  constructor
  · rw [h.2.1 (by decide) (by decide)]
    rfl
  · rw [h.2.2.2]
    rfl

/-- C5: a modifier list longer than `_MULTY_MODIFIER_LEN = 2` makes
`generate` raise (the bare `raise` of `__validate_modifiers`) and never
return a token sequence; a modifier list of length at most 2 passes
validation and `generate` proceeds to `create_token`. -/
theorem generate_modifier_depth (f : String) (ms : List String) (v : TValue) :
    (ms.length > _MULTY_MODIFIER_LEN →
      generate f ms v = Except.error SigmaError.bareRaise
      ∧ ∀ r, generate f ms v ≠ Except.ok r)
    ∧ (ms.length ≤ _MULTY_MODIFIER_LEN →
      __validate_modifiers ms = Except.ok true
      ∧ generate f ms v = (create_token f ms v).map some) := by
  constructor
  · intro h
    have hgen : generate f ms v = Except.error SigmaError.bareRaise := by
      simp [generate, __validate_modifiers, h]
    exact ⟨hgen, fun r => by rw [hgen]; simp⟩
  · intro h
    have hval := validate_modifiers_ok ms h
    exact ⟨hval, by simp [generate, hval]⟩

/-- Witness for `generate_modifier_depth`: a three-modifier chain raises,
and a one-modifier chain passes validation and builds its token. -/
theorem generate_modifier_depth_witness :
    generate "f" ["a", "b", "c"] (TValue.str "x")
      = Except.error SigmaError.bareRaise
    ∧ __validate_modifiers ["contains"] = Except.ok true
    ∧ generate "f" ["contains"] (TValue.str "x")
      = (create_token "f" ["contains"] (TValue.str "x")).map some := by
  have h1 := (generate_modifier_depth "f" ["a", "b", "c"]
    (TValue.str "x")).1 (by decide)
  have h2 := (generate_modifier_depth "f" ["contains"]
    (TValue.str "x")).2 (by decide)
  exact ⟨h1.1, h2.1, h2.2⟩

/- C6: operator mapping. ----------------------------------------------- -/

lemma lookup_mem_values (l : List (String × String)) (k v : String)
    (h : l.lookup k = some v) : v ∈ l.map Prod.snd := by
  induction l with
  | nil => simp [List.lookup] at h
  | cons p l ih =>
    obtain ⟨pk, pv⟩ := p
    rw [List.lookup] at h
    by_cases hk : (k == pk) = true
    · simp only [hk, if_true] at h
      injection h with h
      rw [← h]
      exact List.mem_cons_self _ _
    · have hk2 : (k == pk) = false := by
        cases hkk : (k == pk)
        · rfl
        · exact absurd hkk hk
      rw [hk2] at h
      simp only [Bool.false_eq_true, if_false] at h
      exact List.mem_cons_of_mem _ (ih h)

/-- C6: `map_operator` returns the `operators_map` entry of the lowercased
operator text whenever that key is present, and raises
`UnsupportedOperatorException` exactly when it is absent; consequently every
operator it hands to `search_value` (and hence every operator token the
field-value path emits before wildcard rewriting) is drawn from the
dialect's `operators_map`. -/
theorem map_operator_closure (operators_map : List (String × String))
    (op : String) :
    (∀ v, operators_map.lookup (pyLower op) = some v →
      map_operator operators_map op = Except.ok v)
    ∧ ((∃ e, map_operator operators_map op = Except.error e)
        ↔ operators_map.lookup (pyLower op) = none)
    ∧ (∀ v, map_operator operators_map op = Except.ok v →
        v ∈ operators_map.map Prod.snd) := by
  refine ⟨?_, ⟨?_, ?_⟩, ?_⟩
  · intro v h
    simp [map_operator, h]
  · rintro ⟨e, he⟩
    cases hl : operators_map.lookup (pyLower op) with
    | none => rfl
    | some v => simp [map_operator, hl] at he
  · intro h
    exact ⟨op, by simp [map_operator, h]⟩
  · intro v h
    cases hl : operators_map.lookup (pyLower op) with
    | none => simp [map_operator, hl] at h
    | some w =>
      simp only [map_operator, hl, Except.ok.injEq] at h
      rw [← h]
      exact lookup_mem_values operators_map (pyLower op) w hl

/-- Witness for `map_operator_closure` on a small operators map: a present
key maps to its entry (which lies in the map's values), a missing key
errors. -/
theorem map_operator_closure_witness :
    map_operator [("=", "eq"), ("contains", "contains_op")] "CONTAINS"
      = Except.ok "contains_op"
    ∧ "contains_op" ∈ ([("=", "eq"), ("contains", "contains_op")].map Prod.snd)
    ∧ (∃ e, map_operator [("=", "eq")] "re" = Except.error e) := by
  have h1 := map_operator_closure [("=", "eq"), ("contains", "contains_op")]
    "CONTAINS"
  have h2 := map_operator_closure [("=", "eq")] "re"
  have hm : map_operator [("=", "eq"), ("contains", "contains_op")] "CONTAINS"
      = Except.ok "contains_op" := h1.1 "contains_op" (by decide)
  exact ⟨hm, h1.2.2 "contains_op" hm, h2.2.1.mpr (by decide)⟩

/- C7: CTI chunking. --------------------------------------------------- -/

lemma foldl_keep_acc (l : List β) (acc : α) :
    l.foldl (fun r _ => r) acc = acc := by
  induction l generalizing acc with
  | nil => rfl
  | cons b l ih => exact ih acc

lemma foldl_append_singleton (f : β → α) (l : List β) :
    ∀ acc : List α, l.foldl (fun r x => r ++ [f x]) acc = acc ++ l.map f := by
  induction l with
  | nil => intro acc; simp
  | cons b l ih =>
    intro acc
    rw [List.foldl_cons, ih (acc ++ [f b])]
    simp

lemma iocs_inner_fold (mapping : List (String × String)) (g : String)
    (iocs : List String) (acc : List IocsChunkValue) :
    iocs.foldl (fun result ioc =>
      match mapping.lookup g with
      | some platformField =>
        if platformField ≠ "" then result ++ [⟨g, platformField, ioc⟩]
        else result
      | none => result) acc
    = acc ++ (match mapping.lookup g with
      | some platformField =>
        if platformField ≠ "" then
          iocs.map fun ioc => (⟨g, platformField, ioc⟩ : IocsChunkValue)
        else []
      | none => []) := by
  rcases hl : mapping.lookup g with _ | p
  · simp only [hl, foldl_keep_acc, List.append_nil]
  · by_cases hp : p = ""
    · simp only [hl, hp]
      simp [foldl_keep_acc]
    · simp only [hl]
      simp only [ne_eq, hp, not_false_eq_true, if_true]
      exact foldl_append_singleton (fun ioc => (⟨g, p, ioc⟩ : IocsChunkValue))
        iocs acc

lemma iocs_flat_eq_claim (data : List (String × List String))
    (mapping : List (String × String)) :
    _get_iocs_chunk_flat data mapping = iocs_records_claim data mapping := by
  suffices h : ∀ acc, data.foldl
      (fun result gi =>
        gi.2.foldl
          (fun result ioc =>
            match mapping.lookup gi.1 with
            | some platformField =>
              if platformField ≠ "" then result ++ [⟨gi.1, platformField, ioc⟩]
              else result
            | none => result)
          result)
      acc = acc ++ iocs_records_claim data mapping by
    simpa [_get_iocs_chunk_flat] using h []
  induction data with
  | nil => intro acc; simp [iocs_records_claim]
  | cons gi data ih =>
    intro acc
    rw [List.foldl_cons, iocs_inner_fold mapping gi.1 gi.2 acc, ih]
    simp [iocs_records_claim, List.append_assoc]

lemma chunkify_flatten_aux (k : Nat) :
    ∀ (n : Nat) (l : List α), l.length ≤ n →
      (chunkify (k + 1) l).flatten = l := by
  intro n
  induction n with
  | zero =>
    intro l hl
    have : l = [] := List.length_eq_zero.mp (by omega)
    subst this
    simp [chunkify]
  | succ n ih =>
    intro l hl
    cases l with
    | nil => simp [chunkify]
    | cons x xs =>
      rw [chunkify, List.flatten_cons,
        ih ((x :: xs).drop (k + 1)) (by simp [List.length_drop]; simp at hl; omega)]
      exact List.take_append_drop _ _

lemma chunkify_sizes_aux (k : Nat) :
    ∀ (n : Nat) (l : List α), l.length ≤ n →
      (∀ c ∈ chunkify (k + 1) l, c.length ≤ k + 1)
      ∧ (∀ c ∈ (chunkify (k + 1) l).dropLast, c.length = k + 1) := by
  intro n
  induction n with
  | zero =>
    intro l hl
    have : l = [] := List.length_eq_zero.mp (by omega)
    subst this
    simp [chunkify]
  | succ n ih =>
    intro l hl
    cases l with
    | nil => simp [chunkify]
    | cons x xs =>
      have hdropLen : ((x :: xs).drop (k + 1)).length ≤ n := by
        simp only [List.length_drop, List.length_cons]
        simp at hl
        omega
      have ihd := ih ((x :: xs).drop (k + 1)) hdropLen
      constructor
      · intro c hc
        rw [chunkify] at hc
        rcases List.mem_cons.mp hc with hc | hc
        · rw [hc, List.length_take]
          omega
        · exact ihd.1 c hc
      · intro c hc
        rw [chunkify] at hc
        cases hdrop : (x :: xs).drop (k + 1) with
        | nil =>
          rw [hdrop] at hc
          simp [chunkify] at hc
        | cons y ys =>
          rw [hdrop, chunkify] at hc
          rw [List.dropLast_cons₂] at hc
          rcases List.mem_cons.mp hc with hc | hc
          · have hlong : k + 1 < (x :: xs).length := by
              by_contra hshort
              have : (x :: xs).drop (k + 1) = [] :=
                List.drop_eq_nil_of_le (by omega)
              rw [this] at hdrop
              cases hdrop
            rw [hc, List.length_take]
            omega
          · have := ihd.2 c
            rw [hdrop, chunkify] at this
            exact this hc

/-- C7: for every chunk size `k ≥ 1`, concatenating the chunks returned by
`_get_iocs_chunk` yields exactly the `IocsChunkValue` records built from
each `(generic_field, ioc)` pair whose generic field has a non-empty
mapping entry, in input iteration order (pairs whose generic field is
absent from the mapping are dropped); every chunk has size at most `k` and
every chunk except possibly the last has size exactly `k`. -/
theorem cti_chunking_law (k : Nat) (data : List (String × List String))
    (mapping : List (String × String)) (hk : 1 ≤ k) :
    (_get_iocs_chunk k data mapping).flatten = iocs_records_claim data mapping
    ∧ (∀ c ∈ _get_iocs_chunk k data mapping, c.length ≤ k)
    ∧ (∀ c ∈ (_get_iocs_chunk k data mapping).dropLast, c.length = k) := by
  obtain ⟨k', rfl⟩ : ∃ k', k = k' + 1 := ⟨k - 1, by omega⟩
  have hsizes := chunkify_sizes_aux k'
    (_get_iocs_chunk_flat data mapping).length
    (_get_iocs_chunk_flat data mapping) le_rfl
  refine ⟨?_, hsizes.1, hsizes.2⟩
  rw [show _get_iocs_chunk (k' + 1) data mapping
      = chunkify (k' + 1) (_get_iocs_chunk_flat data mapping) from rfl,
    chunkify_flatten_aux k' (_get_iocs_chunk_flat data mapping).length
      (_get_iocs_chunk_flat data mapping) le_rfl,
    iocs_flat_eq_claim]

/-- Witness for `cti_chunking_law` at chunk size 2 over two generic fields,
one of which is absent from the mapping. -/
theorem cti_chunking_law_witness :
    (_get_iocs_chunk 2 [("ip", ["1", "2", "3"]), ("url", ["u"])]
        [("ip", "src_ip")]).flatten
      = iocs_records_claim [("ip", ["1", "2", "3"]), ("url", ["u"])]
          [("ip", "src_ip")]
    ∧ (∀ c ∈ _get_iocs_chunk 2 [("ip", ["1", "2", "3"]), ("url", ["u"])]
        [("ip", "src_ip")], c.length ≤ 2) := by
  have h := cti_chunking_law 2 [("ip", ["1", "2", "3"]), ("url", ["u"])]
    [("ip", "src_ip")] (by decide)
  exact ⟨h.1, h.2.1⟩

/- C8: revoked/deprecated entries never contribute. -------------------- -/

lemma bool_eq_false_of_ne_true {b : Bool} (h : ¬ b = true) : b = false := by
  cases hb : b
  · rfl
  · exact absurd hb h

lemma pass_tactics_filter :
    ∀ objects : List MitreObject,
      pass_tactics (objects.filter fun e => !revoked_or_deprecated e)
        = pass_tactics objects := by
  intro objects
  induction objects with
  | nil => rfl
  | cons e es ih =>
    rw [List.filter_cons]
    by_cases hrev : revoked_or_deprecated e = true
    · simp only [hrev, Bool.not_true, Bool.false_eq_true, if_false]
      rw [ih]
      have hR : pass_tactics (e :: es) = pass_tactics es := by
        rw [pass_tactics]
        simp [hrev]
      rw [hR]
    · have hrev2 := bool_eq_false_of_ne_true hrev
      simp only [hrev2, Bool.not_false, if_true]
      rw [pass_tactics, pass_tactics]
      simp only [ih]

lemma pass_techniques_filter (tm : List (String × String)) :
    ∀ objects : List MitreObject,
      pass_techniques tm (objects.filter fun e => !revoked_or_deprecated e)
        = pass_techniques tm objects := by
  intro objects
  induction objects with
  | nil => rfl
  | cons e es ih =>
    rw [List.filter_cons]
    by_cases hrev : revoked_or_deprecated e = true
    · simp only [hrev, Bool.not_true, Bool.false_eq_true, if_false]
      rw [ih]
      have hR : pass_techniques tm (e :: es) = pass_techniques tm es := by
        rw [pass_techniques]
        simp [hrev]
      rw [hR]
    · have hrev2 := bool_eq_false_of_ne_true hrev
      simp only [hrev2, Bool.not_false, if_true]
      rw [pass_techniques, pass_techniques]
      simp only [ih]

lemma pass_subtechniques_filter (tmap : List (String × String)) :
    ∀ (objects : List MitreObject) (acc : List (String × TechniqueRecord)),
      pass_subtechniques tmap (objects.filter fun e => !revoked_or_deprecated e)
          acc
        = pass_subtechniques tmap objects acc := by
  intro objects
  induction objects with
  | nil => intro acc; rfl
  | cons e es ih =>
    intro acc
    rw [List.filter_cons]
    by_cases hrev : revoked_or_deprecated e = true
    · simp only [hrev, Bool.not_true, Bool.false_eq_true, if_false]
      rw [ih acc]
      have hR : pass_subtechniques tmap (e :: es) acc
          = pass_subtechniques tmap es acc := by
        rw [pass_subtechniques]
        simp [hrev]
      rw [hR]
    · have hrev2 := bool_eq_false_of_ne_true hrev
      simp only [hrev2, Bool.not_false, if_true]
      rw [pass_subtechniques, pass_subtechniques]
      simp only [ih]

/-- C8: no object whose `revoked` or `x_mitre_deprecated` field is set
contributes anything to `update_mitre_config`: erasing every such object
from the bundle leaves the resulting tactics and techniques tables (and
any raised error) unchanged, so no entry of the final tables originates
from a revoked or deprecated object. -/
theorem mitre_revoked_never_contributes (objects : List MitreObject) :
    update_mitre_config (objects.filter fun e => !revoked_or_deprecated e)
      = update_mitre_config objects := by
  simp only [update_mitre_config, pass_tactics_filter, pass_techniques_filter,
    pass_subtechniques_filter]

/- C9: catalog lookups. ------------------------------------------------ -/

lemma map_eq_self_of (f : α → α) :
    ∀ l : List α, (∀ x ∈ l, f x = x) → l.map f = l := by
  intro l h
  induction l with
  | nil => rfl
  | cons a t ih =>
    rw [List.map_cons, h a (List.mem_cons_self a t),
      ih fun x hx => h x (List.mem_cons_of_mem a hx)]

lemma pyReplaceAllChar_noop (a b : Char) (s : String) (h : a ∉ s.data) :
    pyReplaceAllChar a b s = s := by
  have hmap : s.data.map (fun c => if c = a then b else c) = s.data :=
    map_eq_self_of _ s.data (by
      intro x hx
      have hxa : x ≠ a := fun hh => h (hh ▸ hx)
      simp [hxa])
  unfold pyReplaceAllChar
  rw [hmap]

/-- C9 (amended): `get_technique` applied to the key under which a
technique is stored (its lowercase dotted id, e.g. `t1059.003`) returns
that technique's record, and `get_tactic` applied to the key under which a
tactic is stored — the lowercase snake-case name `command_and_execution`,
not the display name `Command and Execution`, which is not normalized by
the lookup — returns that tactic's record; absent ids and keys return the
empty record.  (`get_tactic` replaces dots by underscores before the read,
which is the identity on dot-free keys.) -/
theorem mitre_lookups (tactics : List (String × TacticRecord))
    (techniques : List (String × TechniqueRecord)) (key tid : String)
    (tr : TacticRecord) (qr : TechniqueRecord) :
    (dictGet techniques tid = some qr →
      get_technique techniques tid = some qr)
    ∧ (dictGet techniques tid = none → get_technique techniques tid = none)
    ∧ ('.' ∉ key.data → dictGet tactics key = some tr →
        get_tactic tactics key = some tr)
    ∧ ('.' ∉ key.data → dictGet tactics key = none →
        get_tactic tactics key = none) := by
  refine ⟨fun h => h, fun h => h, ?_, ?_⟩
  · intro hdot h
    unfold get_tactic
    rw [pyReplaceAllChar_noop '.' '_' key hdot]
    exact h
  · intro hdot h
    unfold get_tactic
    rw [pyReplaceAllChar_noop '.' '_' key hdot]
    exact h

/-- Witness for `mitre_lookups` on a one-entry catalog of each kind,
exercising the present-key and absent-key cases. -/
theorem mitre_lookups_witness :
    get_technique [("t1059.003", ⟨"T1059.003", "PowerShell", "http://t",
        ["Execution"]⟩)] "t1059.003"
      = some ⟨"T1059.003", "PowerShell", "http://t", ["Execution"]⟩
    ∧ get_tactic [("command_and_execution",
        ⟨"TA0099", "http://x", "Command and Execution"⟩)]
        "command_and_execution"
      = some ⟨"TA0099", "http://x", "Command and Execution"⟩
    ∧ get_technique [("t1059.003", ⟨"T1059.003", "PowerShell", "http://t",
        ["Execution"]⟩)] "t9999" = none := by
  have h1 := mitre_lookups
    [("command_and_execution", ⟨"TA0099", "http://x", "Command and Execution"⟩)]
    [("t1059.003", ⟨"T1059.003", "PowerShell", "http://t", ["Execution"]⟩)]
    "command_and_execution" "t1059.003"
    ⟨"TA0099", "http://x", "Command and Execution"⟩
    ⟨"T1059.003", "PowerShell", "http://t", ["Execution"]⟩
  have h2 := mitre_lookups
    [("command_and_execution", ⟨"TA0099", "http://x", "Command and Execution"⟩)]
    [("t1059.003", ⟨"T1059.003", "PowerShell", "http://t", ["Execution"]⟩)]
    "command_and_execution" "t9999"
    ⟨"TA0099", "http://x", "Command and Execution"⟩
    ⟨"T1059.003", "PowerShell", "http://t", ["Execution"]⟩
  exact ⟨h1.1 (by decide), h1.2.2.1 (by decide) (by decide),
    h2.2.1 (by decide)⟩

/-- Counterexample to C9 as stated: a tactic built by `update_mitre_config`
is stored under the snake-case key `command_and_execution`, and
`get_tactic` applied to the display name `Command and Execution` (which the
claim says returns the record) returns the empty record instead. -/
def sampleTacticObject : MitreObject :=
  { type := "x-mitre-tactic",
    name := "Command and Execution",
    x_mitre_shortname := "command-and-execution",
    external_references := [⟨"mitre-attack", "TA0099", "http://x"⟩] }

theorem mitre_get_tactic_display_name_cex :
    update_mitre_config [sampleTacticObject]
      = Except.ok ([("command_and_execution",
          ⟨"TA0099", "http://x", "Command and Execution"⟩)], [])
    ∧ get_tactic [("command_and_execution",
          ⟨"TA0099", "http://x", "Command and Execution"⟩)]
        "Command and Execution" = none := by
  exact ⟨rfl, rfl⟩

/- C10: MetaInfoContainer defaults. ------------------------------------ -/

lemma pyOrS_falsy (v : Option String) (d : String) (h : falsyS v) :
    pyOrS v d = d := by
  rcases h with rfl | rfl <;> rfl

lemma pyOrL_falsy (v : Option (List α)) (d : List α) (h : falsyL v) :
    pyOrL v d = d := by
  rcases h with rfl | rfl <;> rfl

lemma pyOrS_ne_empty (v : Option String) (d : String) (hd : d ≠ "") :
    pyOrS v d ≠ "" := by
  rcases v with _ | s
  · exact hd
  · by_cases hs : s = ""
    · simp only [pyOrS, hs, if_true]
      exact hd
    · simp only [pyOrS, hs, if_false]
      exact hs

/-- C10: every falsy constructor argument of `MetaInfoContainer` (absent,
empty string, empty list, empty dict) is replaced by the documented
default — the fresh UUID for id, today's date, severity `low`, license
`DRL 1.1`, status `stable`, empty lists and dict, and the default mapping
id — so a constructed container never carries an empty id, date, license,
severity or status (the id and date parameters produced by `uuid.uuid4()`
and `datetime.now()` being nonempty). -/
theorem metainfo_falsy_defaults (freshUuid todayDate : String)
    (id_ title description author date license_ severity : Option String)
    (references tags : Option (List String))
    (mitre_attack : Option (List (String × List String)))
    (status : Option String)
    (false_positives source_mapping_ids : Option (List String))
    (c : MetaInfoContainer)
    (hc : c = mkMetaInfoContainer freshUuid todayDate id_ title description
      author date license_ severity references tags mitre_attack status
      false_positives source_mapping_ids) :
    (falsyS id_ → c.id = freshUuid)
    ∧ (falsyS date → c.date = todayDate)
    ∧ (falsyS severity → c.severity = SeverityType.low)
    ∧ (falsyS license_ → c.license = "DRL 1.1")
    ∧ (falsyS status → c.status = "stable")
    ∧ (falsyL references → c.references = [])
    ∧ (falsyL tags → c.tags = [])
    ∧ (falsyL mitre_attack → c.mitre_attack = [])
    ∧ (falsyL false_positives → c.false_positives = [])
    ∧ (falsyL source_mapping_ids →
        c.source_mapping_ids = [DEFAULT_MAPPING_NAME])
    ∧ (freshUuid ≠ "" → c.id ≠ "")
    ∧ (todayDate ≠ "" → c.date ≠ "")
    ∧ c.license ≠ "" ∧ c.severity ≠ "" ∧ c.status ≠ "" := by
  subst hc
  refine ⟨fun h => pyOrS_falsy _ _ h, fun h => pyOrS_falsy _ _ h,
    fun h => pyOrS_falsy _ _ h, fun h => pyOrS_falsy _ _ h,
    fun h => pyOrS_falsy _ _ h, fun h => pyOrL_falsy _ _ h,
    fun h => pyOrL_falsy _ _ h, fun h => pyOrL_falsy _ _ h,
    fun h => pyOrL_falsy _ _ h, fun h => pyOrL_falsy _ _ h,
    fun h => pyOrS_ne_empty _ _ h, fun h => pyOrS_ne_empty _ _ h,
    pyOrS_ne_empty _ _ (by decide), pyOrS_ne_empty _ _ (by decide),
    pyOrS_ne_empty _ _ (by decide)⟩

/-- Witness for `metainfo_falsy_defaults` at a mixed set of falsy
arguments (absent, empty string, empty list, empty dict). -/
theorem metainfo_falsy_defaults_witness :
    (mkMetaInfoContainer "u1" "2024-05-05" none (some "") none (some "") none
        (some "") none (some []) none (some []) none none (some [])).id = "u1"
    ∧ (mkMetaInfoContainer "u1" "2024-05-05" none (some "") none (some "")
        none (some "") none (some []) none (some []) none none
        (some [])).date = "2024-05-05"
    ∧ (mkMetaInfoContainer "u1" "2024-05-05" none (some "") none (some "")
        none (some "") none (some []) none (some []) none none
        (some [])).severity = SeverityType.low
    ∧ (mkMetaInfoContainer "u1" "2024-05-05" none (some "") none (some "")
        none (some "") none (some []) none (some []) none none
        (some [])).license = "DRL 1.1"
    ∧ (mkMetaInfoContainer "u1" "2024-05-05" none (some "") none (some "")
        none (some "") none (some []) none (some []) none none
        (some [])).status = "stable"
    ∧ (mkMetaInfoContainer "u1" "2024-05-05" none (some "") none (some "")
        none (some "") none (some []) none (some []) none none
        (some [])).source_mapping_ids = [DEFAULT_MAPPING_NAME]
    ∧ (mkMetaInfoContainer "u1" "2024-05-05" none (some "") none (some "")
        none (some "") none (some []) none (some []) none none
        (some [])).id ≠ "" := by
  obtain ⟨h1, h2, h3, h4, h5, h6, h7, h8, h9, h10, h11, h12, h13, h14, h15⟩ :=
    metainfo_falsy_defaults "u1" "2024-05-05" none (some "") none (some "")
      none (some "") none (some []) none (some []) none none (some []) _ rfl
  exact ⟨h1 (Or.inl rfl), h2 (Or.inl rfl), h3 (Or.inl rfl),
    h4 (Or.inr rfl), h5 (Or.inl rfl), h10 (Or.inr rfl), h11 (by decide)⟩
